import Mathlib

/-!
Shallow embedding of the `SingleLinkedList` container from `src/main.cpp`.

The list object holds a non-heap sentinel node `head_` whose `next_node`
starts the chain of heap nodes, plus a `size_` counter.  We model the
observable state as the Lean list of values stored in the chain (in order,
starting at `head_.next_node`) together with the `size_` field kept as a
separate number, so that the size/chain bookkeeping of every operation is
an actual proof obligation.  A Lean `List` is finite by construction, which
models the acyclic, uniquely-owned chain.

Iterators (`BasicIterator`) hold a raw `Node*`.  Within one list state the
possible targets are: the sentinel `&head_` (distinct from every heap node
and from `nullptr`), the i-th heap node of the chain, or `nullptr`.  Two
iterators compare equal exactly when the pointers are equal, so iterator
equality is modelled by equality of these abstract positions.
-/

/-- Abstract position held by a `BasicIterator`: the sentinel `&head_`,
the i-th real node of the chain (0-based), or `nullptr`. -/
inductive BasicIterator where
  | sentinel : BasicIterator
  | node : Nat → BasicIterator
  | null : BasicIterator
deriving DecidableEq

/-- State of a `SingleLinkedList<T>`: the values in the chain hanging off
the sentinel (`head_.next_node` onwards) and the `size_` field. -/
structure SingleLinkedList (T : Type) where
  chain : List T
  size : Nat
deriving DecidableEq

namespace SingleLinkedList

variable {T : Type}

/-- `begin()`: `Iterator(head_.next_node)` — the first heap node, or null
when the chain is empty. -/
def begin (l : SingleLinkedList T) : BasicIterator :=
  match l.chain with
  | [] => .null
  | _ :: _ => .node 0

/-- `end()` / `cend()`: `Iterator(nullptr)`. -/
def endIter (_ : SingleLinkedList T) : BasicIterator := .null

/-- `before_begin()` / `cbefore_begin()`: `Iterator(&head_)`, the sentinel. -/
def before_begin (_ : SingleLinkedList T) : BasicIterator := .sentinel

/-- `BasicIterator::operator++`: `node_ = node_->next_node`.  From the
sentinel this reads `head_.next_node`; from node `i` it reads that node's
link; from null it dereferences `nullptr` (undefined behaviour, `none`).
A `node i` value with `i` out of range designates no live node and is
likewise meaningless (`none`). -/
def iterSucc (l : SingleLinkedList T) : BasicIterator → Option BasicIterator
  | .sentinel =>
    match l.chain with
    | [] => some .null
    | _ :: _ => some (.node 0)
  | .node i =>
    if i < l.chain.length then
      some (if i + 1 < l.chain.length then .node (i + 1) else .null)
    else none
  | .null => none

/-- `GetSize()`: returns `size_`. -/
def GetSize (l : SingleLinkedList T) : Nat := l.size

/-- `IsEmpty()`: returns `size_ == 0`. -/
def IsEmpty (l : SingleLinkedList T) : Bool := l.size == 0

/-- `PushFront(value)`: `head_.next_node = new Node(value, head_.next_node); ++size_;`. -/
def PushFront (l : SingleLinkedList T) (value : T) : SingleLinkedList T :=
  ⟨value :: l.chain, l.size + 1⟩

/-- `PopFront()` (release build: asserts compiled out): if `size_ == 0`
return immediately; otherwise read `head_.next_node->next_node` (undefined
behaviour if the chain is empty while `size_` is not — `none`), delete the
first node and relink, `--size_`. -/
def PopFront (l : SingleLinkedList T) : Option (SingleLinkedList T) :=
  if l.size = 0 then some l
  else
    match l.chain with
    | [] => none
    | _ :: rest => some ⟨rest, l.size - 1⟩

/-- Loop body of `Clear()`: `while (head_.next_node != nullptr) PopFront();`.
If `size_` hits 0 while the chain is still non-empty, `PopFront` returns
without popping and the loop never terminates (`none`). -/
def ClearAux : List T → Nat → Option (SingleLinkedList T)
  | [], n => some ⟨[], n⟩
  | _ :: rest, n => if n = 0 then none else ClearAux rest (n - 1)

/-- `Clear()`. -/
def Clear (l : SingleLinkedList T) : Option (SingleLinkedList T) :=
  ClearAux l.chain l.size

/-- Result of running `InsertAfter` with a value copy that may throw:
normal return (new state and returned iterator), a propagated exception
(with the observable list state at the throw), or undefined behaviour. -/
inductive InsOutcome (T : Type) where
  | ok : SingleLinkedList T → BasicIterator → InsOutcome T
  | threw : SingleLinkedList T → InsOutcome T
  | ub : InsOutcome T
deriving DecidableEq

/-- `InsertAfter(pos, value)` with the element copy modelled explicitly.
The source first evaluates `new Node(value, before->next_node)` — reading
`before->next_node` and copying `value` (which may throw) — and only then
assigns `before->next_node` and increments `size_`.  So on a throw no
field of the list has been written yet.  A null or dangling `pos` makes
the read of `before->next_node` undefined behaviour. -/
def InsertAfterRun (l : SingleLinkedList T) (pos : BasicIterator)
    (copied : Except Unit T) : InsOutcome T :=
  match pos with
  | .null => .ub
  | .sentinel =>
    match copied with
    | .error _ => .threw l
    | .ok v => .ok ⟨v :: l.chain, l.size + 1⟩ (.node 0)
  | .node i =>
    if i < l.chain.length then
      match copied with
      | .error _ => .threw l
      | .ok v =>
        .ok ⟨l.chain.take (i + 1) ++ v :: l.chain.drop (i + 1), l.size + 1⟩
          (.node (i + 1))
    else .ub

/-- `InsertAfter(pos, value)` on the non-throwing path. -/
def InsertAfter (l : SingleLinkedList T) (pos : BasicIterator) (value : T) :
    Option (SingleLinkedList T × BasicIterator) :=
  match InsertAfterRun l pos (.ok value) with
  | .ok l2 r => some (l2, r)
  | _ => none

/-- `EraseAfter(pos)`: reads `before->next_node->next_node` (undefined
behaviour when `pos` is null, dangling, or its node has no successor),
deletes the successor, relinks, `--size_`, and returns
`Iterator(before->next_node)`. -/
def EraseAfter (l : SingleLinkedList T) (pos : BasicIterator) :
    Option (SingleLinkedList T × BasicIterator) :=
  match pos with
  | .null => none
  | .sentinel =>
    match l.chain with
    | [] => none
    | _ :: rest =>
      some (⟨rest, l.size - 1⟩, match rest with | [] => .null | _ :: _ => .node 0)
  | .node i =>
    if i + 1 < l.chain.length then
      some (⟨l.chain.take (i + 1) ++ l.chain.drop (i + 2), l.size - 1⟩,
        if i + 2 < l.chain.length then .node (i + 1) else .null)
    else none

/-- `swap(other)`: exchanges `head_.next_node` and `size_` of the two
lists; returns the pair (new this, new other). -/
def swapOp (a b : SingleLinkedList T) : SingleLinkedList T × SingleLinkedList T :=
  (⟨b.chain, b.size⟩, ⟨a.chain, a.size⟩)

/-- `InsetAfterListItems(tmp, container)` (name as in the source): walks the
container, doing `pos = tmp.InsertAfter(pos, *it)` for each item, with the
per-element copy modelled by `copyf`.  A throw destroys `tmp` and
propagates (`Except.error`). -/
def InsetAfterListItems (copyf : T → Except Unit T) :
    SingleLinkedList T → BasicIterator → List T → Except Unit (SingleLinkedList T)
  | tmp, _, [] => .ok tmp
  | tmp, pos, x :: xs =>
    match InsertAfterRun tmp pos (copyf x) with
    | .ok tmp2 pos2 => InsetAfterListItems copyf tmp2 pos2 xs
    | _ => .error ()

/-- Copy constructor `SingleLinkedList(const SingleLinkedList& other)`:
default-construct `tmp`, run `InsetAfterListItems(tmp, other)` starting at
`tmp.cbefore_begin()`, then swap `tmp` into `this`.  Result: the state
adopted by `this`, or a propagated exception. -/
def copyCtorRun (copyf : T → Except Unit T) (other : SingleLinkedList T) :
    Except Unit (SingleLinkedList T) :=
  InsetAfterListItems copyf ⟨[], 0⟩ .sentinel other.chain

/-- `SingleLinkedList(std::initializer_list<Type> values)`: same build as
the copy constructor, over the given value sequence. -/
def ofInitList (copyf : T → Except Unit T) (values : List T) :
    Except Unit (SingleLinkedList T) :=
  InsetAfterListItems copyf ⟨[], 0⟩ .sentinel values

/-- `operator=(rhs)`: `if (this == &rhs) return *this;` (the `selfAssign`
flag models the address test), else copy-construct `tmp_othrs(rhs)` and
swap it into `this`.  Result: the state of `this` after the call, paired
with whether an exception propagated. -/
def opAssign (selfAssign : Bool) (a b : SingleLinkedList T)
    (copyf : T → Except Unit T) : SingleLinkedList T × Bool :=
  if selfAssign then (a, false)
  else
    match copyCtorRun copyf b with
    | .error _ => (a, true)
    | .ok tmp => (tmp, false)

/-- Three-argument `std::equal(first1, last1, first2)` over the two chains,
as called by `operator==`.  It never looks at the second range's end: once
the first range is exhausted it returns true, and if the second chain runs
out first it dereferences the null link (undefined behaviour — `none`). -/
def stdEqual : List Int → List Int → Option Bool
  | [], _ => some true
  | _ :: _, [] => none
  | x :: xs, y :: ys => if x == y then stdEqual xs ys else some false

/-- `operator==(lhs, rhs)`: `std::equal(lhs.begin(), lhs.end(), rhs.begin())`. -/
def opEq (a b : SingleLinkedList Int) : Option Bool := stdEqual a.chain b.chain

/-- `operator!=(lhs, rhs)`: `if (lhs == rhs) return false; else return true;`. -/
def opNe (a b : SingleLinkedList Int) : Option Bool :=
  match opEq a b with
  | some true => some false
  | some false => some true
  | none => none

/-- Four-argument `std::lexicographical_compare` over the two chains, using
`operator<` on elements, as called by `operator<`. -/
def stdLexCompare : List Int → List Int → Bool
  | _, [] => false
  | [], _ :: _ => true
  | x :: xs, y :: ys => if x < y then true else if y < x then false else stdLexCompare xs ys

/-- `operator<(lhs, rhs)`: `std::lexicographical_compare(lhs.begin(), lhs.end(), rhs.begin(), rhs.end())`. -/
def opLt (a b : SingleLinkedList Int) : Bool := stdLexCompare a.chain b.chain

/-- `operator<=(lhs, rhs)`: `if (rhs < lhs) return false; else return true;`. -/
def opLe (a b : SingleLinkedList Int) : Bool := if opLt b a then false else true

/-- `operator>(lhs, rhs)`: `if (rhs < lhs) return true; else return false;`. -/
def opGt (a b : SingleLinkedList Int) : Bool := if opLt b a then true else false

/-- `operator>=(lhs, rhs)`: `if (rhs > lhs) return false; else return true;`. -/
def opGe (a b : SingleLinkedList Int) : Bool := if opGt b a then false else true

/-- The documented representation invariant: `size_` equals the number of
nodes reachable from the sentinel (the chain being a Lean list, it is
finite and acyclic by construction). -/
def Invariant (l : SingleLinkedList T) : Prop := l.size = l.chain.length

/-- Index of the element immediately following an iterator position:
the sentinel is followed by index 0, node `i` by index `i + 1`, and
nothing follows the null iterator. -/
def succIdx : BasicIterator → Option Nat
  | .sentinel => some 0
  | .node i => some (i + 1)
  | .null => none

end SingleLinkedList

namespace SingleLinkedList

/-! ### C1 — equality operator -/

/-- C1 (failing-input evaluation): the claim says `a == b` holds iff the
lists have the same length and are element-wise equal.  On `a = {1}` and
`b = {1, 2}` the code's `operator==` — `std::equal(lhs.begin(), lhs.end(),
rhs.begin())`, which never consults `rhs.end()` — returns `true` although
the lengths differ, and `operator!=` accordingly returns `false`. -/
theorem opEq_true_on_proper_prefix :
    opEq ⟨[1], 1⟩ ⟨[1, 2], 2⟩ = some true ∧
    opNe ⟨[1], 1⟩ ⟨[1, 2], 2⟩ = some false ∧
    (⟨[1], 1⟩ : SingleLinkedList Int).chain.length ≠
      (⟨[1, 2], 2⟩ : SingleLinkedList Int).chain.length := by
  refine ⟨rfl, rfl, by decide⟩

/-! ### C2 — before_begin versus begin -/

/-- C2 (counterexample): the claim says that on the empty list
`before_begin()` equals `begin()`.  In the code `before_begin()` is
`Iterator(&head_)` and `begin()` on the empty list is `Iterator(nullptr)`;
the sentinel's address is never null, so they are not equal. -/
theorem before_begin_ne_begin_on_empty :
    before_begin (⟨[], 0⟩ : SingleLinkedList Int) ≠ begin (⟨[], 0⟩ : SingleLinkedList Int) := by
  decide

/-- C2 (amended): for every list — the empty one included —
`before_begin()` is never equal to `begin()`, and advancing
`before_begin()` by one step yields `begin()`. -/
theorem before_begin_spec (l : SingleLinkedList T) :
    before_begin l ≠ begin l ∧ iterSucc l (before_begin l) = some (begin l) := by
  constructor
  · cases h : l.chain <;> simp [before_begin, begin, h]
  · cases h : l.chain <;> simp [before_begin, begin, iterSucc, h]

/-! ### C6 — PushFront then PopFront -/

/-- C6: for every list and value, `PushFront(v)` followed by `PopFront()`
restores the original size and element sequence. -/
theorem pushFront_popFront (l : SingleLinkedList T) (v : T) :
    PopFront (PushFront l v) = some l := by
  cases l
  simp [PushFront, PopFront]

/-! ### C7 — InsertAfter(before_begin(), v) is PushFront(v) -/

/-- C7: `InsertAfter(before_begin(), v)` produces exactly the state
`PushFront(v)` produces (with the returned iterator at the new first
node): `v` becomes the first element, the remaining elements are unchanged
in order, and the size grows by 1. -/
theorem insertAfter_before_begin_eq_pushFront (l : SingleLinkedList T) (v : T) :
    InsertAfter l (before_begin l) v = some (PushFront l v, BasicIterator.node 0) ∧
    (PushFront l v).chain = v :: l.chain ∧
    (PushFront l v).size = l.size + 1 := by
  exact ⟨rfl, rfl, rfl⟩

/-! ### C10 — PopFront on an empty list -/

/-- C10: with assertions compiled out, `PopFront()` on a list whose size
is 0 hits the `if (size_ == 0) return;` guard and is a silent no-op: the
list is returned unmodified (no undefined behaviour). -/
theorem popFront_empty_noop (l : SingleLinkedList T) (h : l.size = 0) :
    PopFront l = some l := by
  simp [PopFront, h]

/-- C10 witness at the concrete empty list. -/
theorem popFront_empty_noop_witness :
    (⟨[], 0⟩ : SingleLinkedList Int).size = 0 ∧
    PopFront (⟨[], 0⟩ : SingleLinkedList Int) = some ⟨[], 0⟩ :=
  ⟨rfl, popFront_empty_noop ⟨[], 0⟩ rfl⟩

end SingleLinkedList

namespace SingleLinkedList

variable {T : Type}

/-! ### C3 — strong exception guarantee of InsertAfter -/

/-- C3: for every list and every valid non-end position (the sentinel, or
a live node), if the value copy inside `InsertAfter` throws, the list
observable after the exception has exactly the size and element sequence
it had before the call: the source only rewrites `before->next_node` and
`size_` after `new Node(value, ...)` has fully succeeded. -/
theorem insertAfter_strong_guarantee (l : SingleLinkedList T) (pos : BasicIterator)
    (hpos : pos = .sentinel ∨ ∃ i, pos = .node i ∧ i < l.chain.length) :
    ∃ l2, InsertAfterRun l pos (Except.error ()) = .threw l2 ∧
      l2.size = l.size ∧ l2.chain = l.chain := by
  rcases hpos with h | ⟨i, h, hi⟩ <;> subst h
  · exact ⟨l, rfl, rfl, rfl⟩
  · exact ⟨l, by simp [InsertAfterRun, hi], rfl, rfl⟩

/-- C3 witness: concrete throwing insert at `before_begin` of `{5}`. -/
theorem insertAfter_strong_guarantee_witness :
    (BasicIterator.sentinel = BasicIterator.sentinel ∨
      ∃ i, BasicIterator.sentinel = BasicIterator.node i ∧
        i < (⟨[5], 1⟩ : SingleLinkedList Int).chain.length) ∧
    ∃ l2, InsertAfterRun (⟨[5], 1⟩ : SingleLinkedList Int) BasicIterator.sentinel
        (Except.error ()) = .threw l2 ∧
      l2.size = (⟨[5], 1⟩ : SingleLinkedList Int).size ∧
      l2.chain = (⟨[5], 1⟩ : SingleLinkedList Int).chain :=
  ⟨Or.inl rfl, insertAfter_strong_guarantee ⟨[5], 1⟩ BasicIterator.sentinel (Or.inl rfl)⟩

/-! ### C4 — EraseAfter -/

/-- C4: if `pos` references a node (sentinel or live node `i`) whose
successor — the element at index `j` = 0 resp. `i + 1` — exists, then
`EraseAfter(pos)` removes exactly that one element (the rest unchanged in
order), decrements the size by 1, and returns the position of the element
now at index `j`, or `end()` if none follows. -/
theorem eraseAfter_spec (l : SingleLinkedList T) (pos : BasicIterator) (j : Nat)
    (hj : succIdx pos = some j) (hlt : j < l.chain.length) :
    ∃ l2 r, EraseAfter l pos = some (l2, r) ∧
      l2.chain = l.chain.eraseIdx j ∧
      l2.size = l.size - 1 ∧
      r = (if j < l2.chain.length then BasicIterator.node j else endIter l2) := by
  cases pos with
  | null => simp [succIdx] at hj
  | sentinel =>
    simp only [succIdx, Option.some.injEq] at hj
    subst hj
    obtain ⟨ch, n⟩ := l
    cases ch with
    | nil => simp at hlt
    | cons c rest =>
      cases rest with
      | nil => exact ⟨⟨[], n - 1⟩, BasicIterator.null, rfl, by simp, rfl, by simp [endIter]⟩
      | cons d rest2 =>
        exact ⟨⟨d :: rest2, n - 1⟩, BasicIterator.node 0, rfl, by simp, rfl, by simp [endIter]⟩
  | node i =>
    simp only [succIdx, Option.some.injEq] at hj
    subst hj
    refine ⟨⟨l.chain.take (i + 1) ++ l.chain.drop (i + 2), l.size - 1⟩,
      (if i + 2 < l.chain.length then BasicIterator.node (i + 1) else BasicIterator.null),
      ?_, ?_, rfl, ?_⟩
    · simp [EraseAfter, hlt]
    · rw [List.eraseIdx_eq_take_drop_succ]
    · have hlen : (l.chain.take (i + 1) ++ l.chain.drop (i + 2)).length = l.chain.length - 1 := by
        rw [← List.eraseIdx_eq_take_drop_succ, List.length_eraseIdx_of_lt hlt]
      by_cases h2 : i + 2 < l.chain.length
      · have h3 : i + 1 < l.chain.length - 1 := by omega
        simp [endIter, hlen, h2, h3]
      · have h3 : ¬ i + 1 < l.chain.length - 1 := by omega
        simp [endIter, hlen, h2, h3]

/-- C4 witness: erasing after the first node of `{1, 2, 3}`. -/
theorem eraseAfter_spec_witness :
    succIdx (BasicIterator.node 0) = some 1 ∧
    1 < (⟨[1, 2, 3], 3⟩ : SingleLinkedList Int).chain.length ∧
    ∃ l2 r, EraseAfter (⟨[1, 2, 3], 3⟩ : SingleLinkedList Int) (BasicIterator.node 0) =
        some (l2, r) ∧
      l2.chain = (⟨[1, 2, 3], 3⟩ : SingleLinkedList Int).chain.eraseIdx 1 ∧
      l2.size = (⟨[1, 2, 3], 3⟩ : SingleLinkedList Int).size - 1 ∧
      r = (if 1 < l2.chain.length then BasicIterator.node 1 else endIter l2) :=
  ⟨rfl, by decide,
    eraseAfter_spec ⟨[1, 2, 3], 3⟩ (BasicIterator.node 0) 1 rfl (by decide)⟩

end SingleLinkedList

namespace SingleLinkedList

/-! ### C5 — ordering operators -/

/-- `std::lexicographical_compare` over element `<` agrees with the
mathematical lexicographic strict order on the value sequences. -/
theorem stdLexCompare_iff_lex (xs : List Int) : ∀ ys : List Int,
    stdLexCompare xs ys = true ↔ List.Lex (fun x y : Int => x < y) xs ys := by
  induction xs with
  | nil =>
    intro ys
    cases ys with
    | nil => exact iff_of_false (by simp [stdLexCompare]) (List.Lex.not_nil_right _ _)
    | cons y ys => exact iff_of_true rfl List.Lex.nil
  | cons x xs ih =>
    intro ys
    cases ys with
    | nil => exact iff_of_false (by simp [stdLexCompare]) (List.Lex.not_nil_right _ _)
    | cons y ys =>
      show (if x < y then true else if y < x then false else stdLexCompare xs ys) = true ↔ _
      by_cases h1 : x < y
      · exact iff_of_true (by simp [h1]) (List.Lex.rel h1)
      · by_cases h2 : y < x
        · simp only [if_neg h1, if_pos h2]
          constructor
          · intro h; cases h
          · intro h
            cases h with
            | cons h3 => exact absurd h2 (lt_irrefl x)
            | rel hr => exact absurd hr h1
        · have hxy : x = y := le_antisymm (le_of_not_lt h2) (le_of_not_lt h1)
          subst hxy
          simp only [if_neg h1]
          rw [ih ys]
          exact (List.Lex.cons_iff).symm

/-- C5: `a < b` holds exactly when `a`'s element sequence is
lexicographically earlier than `b`'s, and the derived operators satisfy
`a >= b ↔ !(a < b)`, `a <= b ↔ !(b < a)`, `a > b ↔ b < a`, exactly as the
source derives them from `operator<`. -/
theorem ordering_ops_spec (a b : SingleLinkedList Int) :
    (opLt a b = true ↔ List.Lex (fun x y : Int => x < y) a.chain b.chain) ∧
    opGe a b = !opLt a b ∧
    opLe a b = !opLt b a ∧
    opGt a b = opLt b a := by
  refine ⟨stdLexCompare_iff_lex a.chain b.chain, ?_, ?_, ?_⟩
  · cases h : opLt a b <;> simp [opGe, opGt, h]
  · cases h : opLt b a <;> simp [opLe, h]
  · cases h : opLt b a <;> simp [opGt, h]

end SingleLinkedList

namespace SingleLinkedList

variable {T : Type}

/-! ### Build loop lemmas (shared by C8 and C9) -/

/-- Iterator to the last node of a chain already built (the sentinel when
the chain is still empty) — the position `InsetAfterListItems` carries. -/
def lastPos : List T → BasicIterator
  | [] => .sentinel
  | _ :: cs2 => .node cs2.length

/-- One successful `InsertAfter` at the last position appends the element. -/
theorem insertAfterRun_lastPos (cs : List T) (n : Nat) (x : T) :
    InsertAfterRun ⟨cs, n⟩ (lastPos cs) (Except.ok x) =
      .ok ⟨cs ++ [x], n + 1⟩ (lastPos (cs ++ [x])) := by
  cases cs with
  | nil => rfl
  | cons c cs2 =>
    have hguard : cs2.length < (c :: cs2).length := by simp
    have htake : (c :: cs2).take (cs2.length + 1) = c :: cs2 := by
      rw [show cs2.length + 1 = (c :: cs2).length from rfl, List.take_length]
    have hdrop : (c :: cs2).drop (cs2.length + 1) = [] := by
      rw [show cs2.length + 1 = (c :: cs2).length from rfl, List.drop_length]
    simp only [lastPos, InsertAfterRun, hguard, if_pos, htake, hdrop]
    simp [List.append_assoc]

/-- The build loop with a copy that always succeeds appends the items in
order and adds their count to the size. -/
theorem InsetAfterListItems_pure (items : List T) : ∀ (cs : List T) (n : Nat),
    InsetAfterListItems (fun v => Except.ok v) ⟨cs, n⟩ (lastPos cs) items =
      Except.ok ⟨cs ++ items, n + items.length⟩ := by
  induction items with
  | nil => intro cs n; simp [InsetAfterListItems]
  | cons x xs ih =>
    intro cs n
    have step := insertAfterRun_lastPos cs n x
    simp only [InsetAfterListItems, step]
    rw [ih (cs ++ [x]) (n + 1)]
    simp only [Except.ok.injEq, mk.injEq]
    exact ⟨by simp, by simp; omega⟩

/-- Any successful `InsertAfterRun` preserves the size invariant. -/
theorem insertAfterRun_ok_inv (l : SingleLinkedList T) (pos : BasicIterator)
    (c : Except Unit T) (l2 : SingleLinkedList T) (r : BasicIterator)
    (hrun : InsertAfterRun l pos c = .ok l2 r) (h : Invariant l) : Invariant l2 := by
  cases pos with
  | null => simp [InsertAfterRun] at hrun
  | sentinel =>
    cases c with
    | error e => simp [InsertAfterRun] at hrun
    | ok v =>
      simp only [InsertAfterRun, InsOutcome.ok.injEq] at hrun
      obtain ⟨h1, h2⟩ := hrun
      subst h1
      simp only [Invariant] at h ⊢
      simp [h]
  | node i =>
    by_cases hi : i < l.chain.length
    · cases c with
      | error e => simp [InsertAfterRun, hi] at hrun
      | ok v =>
        simp only [InsertAfterRun, hi, if_pos, InsOutcome.ok.injEq] at hrun
        obtain ⟨h1, h2⟩ := hrun
        subst h1
        simp only [Invariant, List.length_append, List.length_take, List.length_cons,
          List.length_drop]
        simp only [Invariant] at h
        omega
    · simp [InsertAfterRun, hi] at hrun

/-- The build loop only ever produces states satisfying the invariant. -/
theorem InsetAfterListItems_ok_inv (copyf : T → Except Unit T) (items : List T) :
    ∀ (tmp : SingleLinkedList T) (pos : BasicIterator) (out : SingleLinkedList T),
      Invariant tmp → InsetAfterListItems copyf tmp pos items = Except.ok out →
      Invariant out := by
  induction items with
  | nil =>
    intro tmp pos out h hout
    simp only [InsetAfterListItems, Except.ok.injEq] at hout
    rwa [← hout]
  | cons x xs ih =>
    intro tmp pos out h hout
    simp only [InsetAfterListItems] at hout
    cases hrun : InsertAfterRun tmp pos (copyf x) with
    | ok tmp2 pos2 =>
      rw [hrun] at hout
      exact ih tmp2 pos2 out (insertAfterRun_ok_inv tmp pos (copyf x) tmp2 pos2 hrun h) hout
    | threw l2 => rw [hrun] at hout; cases hout
    | ub => rw [hrun] at hout; cases hout

/-! ### C8 — copy assignment -/

/-- C8: assignment is copy-and-swap.  With an element copy that succeeds,
`a = b` leaves `a` equal to `b` (the right-hand side, passed by constant
reference, is untouched by construction in this functional model);
self-assignment is a short-circuited no-op; and if an element copy throws
while the temporary is being built, `a` is exactly as before the call. -/
theorem assign_copy_and_swap (a b : SingleLinkedList T) (copyf : T → Except Unit T)
    (hb : Invariant b) :
    opAssign false a b (fun v => Except.ok v) = (b, false) ∧
    opAssign true a b copyf = (a, false) ∧
    (∀ e, copyCtorRun copyf b = Except.error e →
      opAssign false a b copyf = (a, true)) := by
  refine ⟨?_, rfl, ?_⟩
  · obtain ⟨bc, bs⟩ := b
    simp only [Invariant] at hb
    have h := InsetAfterListItems_pure bc [] 0
    simp only [lastPos, List.nil_append, Nat.zero_add] at h
    simp only [opAssign, copyCtorRun, h]
    simp [hb]
  · intro e he
    simp only [opAssign, copyCtorRun] at he ⊢
    simp [he]

/-- C8 witness: assigning `{1, 2}` into `{7}`, with an always-failing copy
for the exception branch. -/
theorem assign_copy_and_swap_witness :
    Invariant (⟨[1, 2], 2⟩ : SingleLinkedList Int) ∧
    (opAssign false (⟨[7], 1⟩ : SingleLinkedList Int) ⟨[1, 2], 2⟩
        (fun v => Except.ok v) = (⟨[1, 2], 2⟩, false) ∧
      opAssign true (⟨[7], 1⟩ : SingleLinkedList Int) ⟨[1, 2], 2⟩
        (fun _ => Except.error ()) = (⟨[7], 1⟩, false) ∧
      (∀ e, copyCtorRun (fun _ => Except.error ()) (⟨[1, 2], 2⟩ : SingleLinkedList Int) =
          Except.error e →
        opAssign false (⟨[7], 1⟩ : SingleLinkedList Int) ⟨[1, 2], 2⟩
          (fun _ => Except.error ()) = (⟨[7], 1⟩, true))) :=
  ⟨rfl, assign_copy_and_swap ⟨[7], 1⟩ ⟨[1, 2], 2⟩ (fun _ => Except.error ()) rfl⟩

end SingleLinkedList

namespace SingleLinkedList

variable {T : Type}

/-! ### C9 — size/chain invariant -/

/-- `Clear()` run with a size counter matching the chain length pops every
node and ends with an empty chain and size 0. -/
theorem ClearAux_self (cs : List T) : ClearAux cs cs.length = some ⟨[], 0⟩ := by
  induction cs with
  | nil => rfl
  | cons c rest ih =>
    simp only [ClearAux, List.length_cons, Nat.succ_ne_zero, if_neg, Nat.add_sub_cancel]
    exact ih

/-- C9: every operation of the container preserves the representation
invariant `size_ = number of nodes reachable from the sentinel` (the chain
being a Lean list, finiteness/acyclicity is built into the model): default
construction, initializer-list construction, copy construction, PushFront,
PopFront, InsertAfter, EraseAfter, Clear, swap (both lists) and assignment
(self or not, whether or not an element copy throws). -/
theorem operations_preserve_invariant (vs : List T) (l m : SingleLinkedList T) (v : T)
    (pos : BasicIterator) (copyf : T → Except Unit T)
    (hl : Invariant l) (hm : Invariant m) :
    Invariant (⟨[], 0⟩ : SingleLinkedList T) ∧
    (∀ r, ofInitList copyf vs = Except.ok r → Invariant r) ∧
    (∀ r, copyCtorRun copyf m = Except.ok r → Invariant r) ∧
    Invariant (PushFront l v) ∧
    (∀ r, PopFront l = some r → Invariant r) ∧
    (∀ r ret, InsertAfter l pos v = some (r, ret) → Invariant r) ∧
    (∀ r ret, EraseAfter l pos = some (r, ret) → Invariant r) ∧
    (∀ r, Clear l = some r → Invariant r) ∧
    Invariant (swapOp l m).1 ∧ Invariant (swapOp l m).2 ∧
    (∀ s, Invariant (opAssign s l m copyf).1) := by
  refine ⟨rfl, ?_, ?_, ?_, ?_, ?_, ?_, ?_, ?_, ?_, ?_⟩
  · intro r h
    exact InsetAfterListItems_ok_inv copyf vs ⟨[], 0⟩ .sentinel r rfl h
  · intro r h
    exact InsetAfterListItems_ok_inv copyf m.chain ⟨[], 0⟩ .sentinel r rfl h
  · simp only [Invariant, PushFront, List.length_cons] at hl ⊢
    simp [hl]
  · intro r h
    simp only [Invariant] at hl ⊢
    by_cases hz : l.size = 0
    · simp only [PopFront, hz, if_pos, Option.some.injEq] at h
      rw [← h, hl]
    · obtain ⟨ch, n⟩ := l
      cases ch with
      | nil => simp at hl; exact absurd hl hz
      | cons c rest =>
        have hz2 : ¬ n = 0 := hz
        have hp : PopFront ⟨c :: rest, n⟩ = some ⟨rest, n - 1⟩ := by
          simp [PopFront, hz2]
        rw [hp] at h
        injection h with h2
        rw [← h2]
        simp at hl ⊢
        omega
  · intro r ret h
    simp only [InsertAfter] at h
    cases hrun : InsertAfterRun l pos (Except.ok v) with
    | ok l2 r2 =>
      rw [hrun] at h
      simp only [Option.some.injEq, Prod.mk.injEq] at h
      rw [← h.1]
      exact insertAfterRun_ok_inv l pos (Except.ok v) l2 r2 hrun hl
    | threw l2 => rw [hrun] at h; cases h
    | ub => rw [hrun] at h; cases h
  · intro r ret h
    simp only [Invariant] at hl ⊢
    cases pos with
    | null => cases h
    | sentinel =>
      obtain ⟨ch, n⟩ := l
      cases ch with
      | nil => cases h
      | cons c rest =>
        simp only [EraseAfter, Option.some.injEq, Prod.mk.injEq] at h
        rw [← h.1]
        simp at hl ⊢
        omega
    | node i =>
      by_cases hi : i + 1 < l.chain.length
      · simp only [EraseAfter, hi, if_pos, Option.some.injEq, Prod.mk.injEq] at h
        rw [← h.1]
        simp only [List.length_append, List.length_take, List.length_drop]
        omega
      · simp [EraseAfter, hi] at h
  · intro r h
    simp only [Invariant] at hl
    simp only [Clear, hl, ClearAux_self, Option.some.injEq] at h
    rw [← h]
    rfl
  · exact hm
  · exact hl
  · intro s
    cases s with
    | true => exact hl
    | false =>
      simp only [opAssign]
      cases hc : copyCtorRun copyf m with
      | error e => simpa using hl
      | ok tmp =>
        simp only
        exact InsetAfterListItems_ok_inv copyf m.chain ⟨[], 0⟩ .sentinel tmp rfl hc

end SingleLinkedList

namespace SingleLinkedList

/-- C9 witness: the invariant statement applied to concrete lists. -/
theorem operations_preserve_invariant_witness :
    Invariant (⟨[1, 2], 2⟩ : SingleLinkedList Int) ∧
    Invariant (⟨[3], 1⟩ : SingleLinkedList Int) ∧
    (Invariant (⟨[], 0⟩ : SingleLinkedList Int) ∧
      (∀ r, ofInitList (fun x => Except.ok x) ([4] : List Int) = Except.ok r → Invariant r) ∧
      (∀ r, copyCtorRun (fun x => Except.ok x) (⟨[3], 1⟩ : SingleLinkedList Int) =
        Except.ok r → Invariant r) ∧
      Invariant (PushFront (⟨[1, 2], 2⟩ : SingleLinkedList Int) 5) ∧
      (∀ r, PopFront (⟨[1, 2], 2⟩ : SingleLinkedList Int) = some r → Invariant r) ∧
      (∀ r ret, InsertAfter (⟨[1, 2], 2⟩ : SingleLinkedList Int) BasicIterator.sentinel 5 =
        some (r, ret) → Invariant r) ∧
      (∀ r ret, EraseAfter (⟨[1, 2], 2⟩ : SingleLinkedList Int) BasicIterator.sentinel =
        some (r, ret) → Invariant r) ∧
      (∀ r, Clear (⟨[1, 2], 2⟩ : SingleLinkedList Int) = some r → Invariant r) ∧
      Invariant (swapOp (⟨[1, 2], 2⟩ : SingleLinkedList Int) ⟨[3], 1⟩).1 ∧
      Invariant (swapOp (⟨[1, 2], 2⟩ : SingleLinkedList Int) ⟨[3], 1⟩).2 ∧
      (∀ s, Invariant
        (opAssign s (⟨[1, 2], 2⟩ : SingleLinkedList Int) ⟨[3], 1⟩ (fun x => Except.ok x)).1)) :=
  ⟨rfl, rfl,
    operations_preserve_invariant ([4] : List Int) ⟨[1, 2], 2⟩ ⟨[3], 1⟩ 5 BasicIterator.sentinel
      (fun x => Except.ok x) rfl rfl⟩

end SingleLinkedList
